import Mathlib

/-!
Verification of the copy_link plugin (`src/main.ts`, second/current version of
the file) against its natural-language specification.

Strings are modelled as `List Char`.  JavaScript string primitives used by the
source (`trim`, `startsWith('#')`, `replace(/^#+\s*/, '')`, `replaceAll`,
`substring`, `lastIndexOf`, `toLowerCase`, `includes`, `split('\n')`,
`match(/^#+\s.*$/gm)`, `replace(/\.md$/, '')`) are each given an executable
model restricted to ASCII character classes, which is the domain all claims
quantify over concretely.
-/

/-- Abbreviation turning a string literal into the `List Char` the model uses. -/
def S (s : String) : List Char := s.data

/-- JavaScript whitespace class `\s`, restricted to its ASCII members. -/
def isWsJS (c : Char) : Bool :=
  c == ' ' || c == '\t' || c == '\n' || c == '\r' || c == '\x0b' || c == '\x0c'

/-- JavaScript line terminators recognised by multiline `^`/`$` and excluded by `.`
(ASCII members). -/
def isLineTerm (c : Char) : Bool := c == '\n' || c == '\r'

/-- ASCII-faithful model of JavaScript `String.prototype.toLowerCase` on one
character: uppercase ASCII letters (code 65–90) map down by 32, everything
else is unchanged. -/
def jsToLower (c : Char) : Char :=
  if 65 ≤ c.toNat ∧ c.toNat ≤ 90 then Char.ofNat (c.toNat + 32) else c

/-- An uppercase ASCII letter. -/
def isUpperA (c : Char) : Bool := 65 ≤ c.toNat && c.toNat ≤ 90

/-- Model of JavaScript `String.prototype.trim` (ASCII whitespace): drop
whitespace from both ends. -/
def jsTrim (s : List Char) : List Char :=
  ((s.dropWhile isWsJS).reverse.dropWhile isWsJS).reverse

/-- Model of `line.startsWith('#')`. -/
def startsWithHash (l : List Char) : Bool :=
  match l with
  | [] => false
  | c :: _ => c == '#'

/-- Model of `s.replace(/^#+\s*/, '')` (used at `main.ts:175` and `main.ts:337`):
if the string starts with `#`, remove the leading run of `#` and any
whitespace immediately following it; otherwise (no `#` at the start, so the
anchored regex does not match) return the string unchanged. -/
def stripHash (l : List Char) : List Char :=
  if startsWithHash l then (l.dropWhile (fun c => c == '#')).dropWhile isWsJS else l

/-- Model of `s.includes(sub)`: `sub` occurs contiguously in `s`. -/
def containsSub (sub : List Char) : List Char → Bool
  | [] => sub.isEmpty
  | c :: cs => sub.isPrefixOf (c :: cs) || containsSub sub cs

/-- The backquote character (code 96), written via its code point. -/
def backtickChar : Char := Char.ofNat 96

/-- The single-quote character (code 39), written via its code point. -/
def singleQuoteChar : Char := Char.ofNat 39

/-- ECMAScript GetSubstitution, specialised to a string search value (no
capture groups, no named captures): expand the replacement template.  A `$`
followed by `$` yields a literal `$`; by `&` the matched substring (for a
string pattern the pattern itself); by a backquote the portion of the subject
before the match; by a single quote the portion after the match.  Any other
`$` — including a trailing one, `$1` (there are no captures) and `$<` (no
named captures) — is emitted literally and scanning resumes at the next
character, which yields the same strings JavaScript produces. -/
def getSubstitution (matched before after : List Char) : List Char → List Char
  | [] => []
  | [c] => if c == '$' then ['$'] else [c]
  | c :: d :: rest2 =>
    if c == '$' then
      if d == '$' then '$' :: getSubstitution matched before after rest2
      else if d == '&' then matched ++ getSubstitution matched before after rest2
      else if d == backtickChar then before ++ getSubstitution matched before after rest2
      else if d == singleQuoteChar then after ++ getSubstitution matched before after rest2
      else c :: getSubstitution matched before after (d :: rest2)
    else c :: getSubstitution matched before after (d :: rest2)

/-- Fuel-driven worker for `replaceAll`: scan left to right, carrying the
prefix of the original string already passed (`pre`); at each position, if
the pattern is a prefix, emit GetSubstitution of the replacement template
(with the matched substring, the text before the match and the text after
it) and jump past the matched occurrence, otherwise keep the character.
Fuel is one unit per step; the caller supplies `s.length`, which always
suffices. -/
def replaceAllAux (pat rep : List Char) : Nat → List Char → List Char → List Char
  | 0, _, s => s
  | _ + 1, _, [] => []
  | fuel + 1, pre, c :: cs =>
    if pat.isPrefixOf (c :: cs) then
      getSubstitution pat pre (cs.drop (pat.length - 1)) rep ++
        replaceAllAux pat rep fuel (pre ++ pat) (cs.drop (pat.length - 1))
    else
      c :: replaceAllAux pat rep fuel (pre ++ [c]) cs

/-- Model of JavaScript `s.replaceAll(pat, rep)` for a nonempty string
pattern: global, leftmost, non-overlapping replacement, each occurrence
replaced by GetSubstitution of the replacement template. -/
def replaceAll (s pat rep : List Char) : List Char :=
  replaceAllAux pat rep s.length [] s

/-- Model of `s.lastIndexOf(c)` on a single-character needle: index of the last
occurrence, or `-1` when absent (JavaScript convention), via `lastIdxAux`. -/
def lastIdxAux (c : Char) : List Char → Option Nat
  | [] => none
  | d :: ds =>
    match lastIdxAux c ds with
    | some k => some (k + 1)
    | none => if d == c then some 0 else none

/-- Model of `s.lastIndexOf(c)`: `-1` when the character does not occur. -/
def jsLastIndexOf (s : List Char) (c : Char) : Int :=
  match lastIdxAux c s with
  | some k => (k : Int)
  | none => -1

/-- Clamp a JavaScript `substring` index argument into `[0, len]`. -/
def clampIdx (len : Nat) (i : Int) : Nat := min i.toNat len

/-- Model of JavaScript `s.substring(a, b)`: clamp both indices into
`[0, s.length]` (negatives become `0`), swap them if out of order, and take
the slice in between. -/
def jsSubstring (s : List Char) (a b : Int) : List Char :=
  let x := clampIdx s.length a
  let y := clampIdx s.length b
  (s.take (max x y)).drop (min x y)

/-- Model of `p.replace(/\.md$/, '')` (`main.ts:362`): strip one trailing
`.md` extension if present. -/
def stripMd (p : List Char) : List Char :=
  if (S ".md").isSuffixOf p then p.take (p.length - 3) else p

/-- The link template substitution of `main.ts:197–200` and `main.ts:367–370`:
three sequential `replaceAll` passes, in the fixed order `${fileDir}`,
`${fileBasename}`, `${headingText}`. -/
def renderLink (fmt fileDir fileBasename headingText : List Char) : List Char :=
  replaceAll
    (replaceAll (replaceAll fmt (S "${fileDir}") fileDir)
      (S "${fileBasename}") fileBasename)
    (S "${headingText}") headingText

/-- The caller-side double-bracket wrapping of the rendered template. -/
def wrapLink (s : List Char) : List Char := '[' :: '[' :: (s ++ [']', ']'])

/-- The loop at `main.ts:171–178`: walk from the cursor line down to line 0;
the first line whose trimmed form starts with `#` yields its stripped text. -/
def resolveNearestHeading (lines : List (List Char)) : Nat → Option (List Char)
  | 0 =>
    let l := jsTrim (lines.getD 0 [])
    if startsWithHash l then some (stripHash l) else none
  | i + 1 =>
    let l := jsTrim (lines.getD (i + 1) [])
    if startsWithHash l then some (stripHash l) else resolveNearestHeading lines i

/-- Outcome of one `copyLink` invocation (`main.ts:165–207`).
`noHeading` is the early return after `Notice('No heading found above the
current cursor position.')`, `noFile` the early return after
`Notice('No file is associated with the current view.')`; in both cases the
clipboard is never written.  `copied s` is the call
`navigator.clipboard.writeText(s)`. -/
inductive CopyResult where
  | noHeading : CopyResult
  | noFile : CopyResult
  | copied : List Char → CopyResult
deriving DecidableEq

/-- The whole `copyLink` flow (`main.ts:165–207`).  `lines` is
`editor.getValue().split('\n')`, `cursorLine` is `cursor.line`, `file` is
`view.file` as an optional `(path, basename)` pair, `linkFormat` is
`this.settings.linkFormat`.  The JavaScript guard `if (!headingText)` is falsy
both for `null` (no heading line found) and for the empty string. -/
def copyLink (lines : List (List Char)) (cursorLine : Nat)
    (file : Option (List Char × List Char)) (linkFormat : List Char) : CopyResult :=
  match resolveNearestHeading lines cursorLine with
  | none => .noHeading
  | some h =>
    if h.isEmpty then .noHeading
    else
      match file with
      | none => .noFile
      | some (path, basename) =>
        let fileDir := jsSubstring path 0 (jsLastIndexOf path '/')
        .copied (wrapLink (renderLink linkFormat fileDir basename h))

/-- The `matchLink` command (`main.ts:209–216`): lower-case the selection;
if the result is falsy (only possible for the empty selection) show
`Notice('No text selected!')` and do not open the modal, otherwise open a
`SearchModal` whose initial query is the lower-cased selection
(returned here as `some query`). -/
def matchLink (selection : List Char) : Option (List Char) :=
  let selectedText := selection.map jsToLower
  if selectedText.isEmpty then none else some selectedText

/-- The keystroke handler at `main.ts:319–321`: `this.query = value` stores the
typed text verbatim (no lower-casing). -/
def updateQuery (typed : List Char) : List Char := typed

/-- Length of a match of the regex `/^#+\s.*$/` attempted at a `^` position:
one or more `#`, then a single `\s` character, then the maximal run of
non-line-terminator characters (`.*`; the trailing multiline `$` then always
holds).  `none` when the regex does not match at this position.  Note the
`\s` may itself be a line terminator, in which case the match spans into the
following line, exactly as in JavaScript. -/
def matchLenJS (cs : List Char) : Option Nat :=
  match cs with
  | [] => none
  | c :: rest =>
    if c == '#' then
      ((rest.dropWhile (fun d => d == '#')).head?).bind fun d =>
        if isWsJS d then
          some ((rest.takeWhile (fun d => d == '#')).length + 2 +
            ((rest.drop ((rest.takeWhile (fun d => d == '#')).length + 1)).takeWhile
              (fun e => !isLineTerm e)).length)
        else none
    else none

/-- Fuel-driven global scan of `content.match(/^#+\s.*$/gm)`
(`main.ts:334`): at each `^` position (start of input, or directly after a
line terminator) try the pattern; on a match emit the matched substring and
resume directly after it, otherwise advance one character.  Fuel is one unit
per step; the caller supplies the content length, which always suffices. -/
def scanAux : Nat → List Char → Bool → List (List Char)
  | 0, _, _ => []
  | _ + 1, [], _ => []
  | fuel + 1, c :: cs, atStart =>
    match (if atStart then matchLenJS (c :: cs) else none) with
    | some n =>
      ((c :: cs).take n) ::
        scanAux fuel (cs.drop (n - 1)) ((((c :: cs).take n).getLast?).any isLineTerm)
    | none => scanAux fuel cs (isLineTerm c)

/-- All matches of `/^#+\s.*$/gm` in `content` (`main.ts:334`); the empty list
also models the `|| []` fallback for a `null` match result. -/
def jsRegexHeadings (content : List Char) : List (List Char) :=
  scanAux content.length content true

/-- A single terminator-free line matches `/^#+\s.*$/` on its own: it starts
with one or more `#` immediately followed by a whitespace character. -/
def strictHeadLine (l : List Char) : Bool :=
  startsWithHash l && ((l.dropWhile (fun c => c == '#')).head?.any isWsJS)

/-- The loose heading test of the copy flow (`main.ts:173–174`): after
trimming, the line starts with `#`. -/
def looseHeadLine (l : List Char) : Bool := startsWithHash (jsTrim l)

/-- Join document lines with `'\n'`, the inverse of
`editor.getValue().split('\n')`; used to state which headings the search
regex finds in a document made of the given lines. -/
def joinLines : List (List Char) → List Char
  | [] => []
  | [l] => l
  | l :: l' :: ls => l ++ '\n' :: joinLines (l' :: ls)

/-- The per-document filter body of `searchHeadings` (`main.ts:335–340`): for
each regex match, keep it when its lower-cased text contains the query, and
record `(path, stripped heading text)`. -/
def searchDoc (p : List Char) : List (List Char) → List Char → List (List Char × List Char)
  | [], _ => []
  | h :: hs, q =>
    if containsSub q (h.map jsToLower) then
      (p, stripHash h) :: searchDoc p hs q
    else searchDoc p hs q

/-- The full `searchHeadings` recomputation (`main.ts:331–341`): iterate the
documents in enumeration order, extract regex headings from each content, and
filter by the current query. -/
def searchDocs : List (List Char × List Char) → List Char → List (List Char × List Char)
  | [], _ => []
  | (p, content) :: docs, q => searchDoc p (jsRegexHeadings content) q ++ searchDocs docs q

/-- `fileDir` as computed in the click handler (`main.ts:364`): substring of
the extension-stripped path, but bounded by the last-separator index of the
ORIGINAL path (`file.path`, which is the same string the `data-path`
attribute was set from). -/
def fileDirOf (p : List Char) : List Char :=
  jsSubstring (stripMd p) 0 (jsLastIndexOf p '/')

/-- `fileBasename` as computed in the click handler (`main.ts:363`): substring
of the extension-stripped path after its own last separator. -/
def fileBasenameOf (p : List Char) : List Char :=
  jsSubstring (stripMd p) (jsLastIndexOf (stripMd p) '/' + 1) (stripMd p).length

/-- Outcome of clicking one search result (`main.ts:355–376`).
`replaced` is the argument of `editor.replaceSelection` (or `none` when the
handler returns early), `modalClosed` records whether `this.close()` ran, and
`notice` is the message shown. -/
structure SelectOutcome where
  replaced : Option (List Char)
  modalClosed : Bool
  notice : List Char
deriving DecidableEq

/-- The click handler (`main.ts:355–376`).  `dataPath`/`dataHeading` are the
`getAttribute` results (`none` models a `null` attribute); the JavaScript
guard `if (!filePath || !selectedHeading)` is falsy for `null` AND for the
empty string.  On the happy path the rendered link replaces the selection and
the modal is closed. -/
def onResultClick (dataPath dataHeading : Option (List Char)) (fmt : List Char) : SelectOutcome :=
  match dataPath, dataHeading with
  | some p, some h =>
    if p.isEmpty || h.isEmpty then
      ⟨none, false, S "Failed to retrieve file path or heading."⟩
    else
      ⟨some (wrapLink (renderLink fmt (fileDirOf p) (fileBasenameOf p) h)),
        true, S "Text replaced with link."⟩
  | _, _ => ⟨none, false, S "Failed to retrieve file path or heading."⟩

/-- The plugin's default link template (`main.ts:158–160`). -/
def defaultLinkFormat : List Char := S "${fileDir}/${fileBasename}#${headingText}|${headingText}"

/-! ## General lemmas about the modelled primitives -/

theorem toNat_charOfNat_of_valid {n : Nat} (h : n.isValidChar) : (Char.ofNat n).toNat = n := by
  have hlt : n < 2 ^ 32 := by
    rcases h with h | h
    · omega
    · omega
  rw [Char.ofNat, dif_pos h]
  simp only [Char.ofNatAux, Char.toNat]
  simp [UInt32.toNat, UInt32.ofNatCore, BitVec.toNat_ofNat, Nat.mod_eq_of_lt hlt]

theorem jsToLower_not_upper (c : Char) : isUpperA (jsToLower c) = false := by
  unfold jsToLower isUpperA
  split
  · rename_i h
    have hvalid : (c.toNat + 32).isValidChar := by
      left
      omega
    rw [toNat_charOfNat_of_valid hvalid]
    simp only [Bool.and_eq_false_iff, decide_eq_false_iff_not]
    omega
  · rename_i h
    simp only [Bool.and_eq_false_iff, decide_eq_false_iff_not]
    omega

theorem head?_dropWhile_false (p : Char → Bool) (l : List Char) {c : Char}
    (h : (l.dropWhile p).head? = some c) : p c = false := by
  have := List.head?_dropWhile_not p l
  rw [h] at this
  exact this

theorem dropWhile_eq_drop (p : Char → Bool) (l : List Char) : ∃ k, l.dropWhile p = l.drop k := by
  induction l with
  | nil => exact ⟨0, rfl⟩
  | cons c cs ih =>
    by_cases hc : p c
    · obtain ⟨k, hk⟩ := ih
      exact ⟨k + 1, by simp [List.dropWhile_cons, hc, hk]⟩
    · exact ⟨0, by simp [List.dropWhile_cons, hc]⟩

theorem getLast?_drop_of_ne_nil {l : List Char} {k : Nat} (h : l.drop k ≠ []) :
    (l.drop k).getLast? = l.getLast? := by
  induction k generalizing l with
  | zero => rfl
  | succ k ih =>
    cases l with
    | nil => simp at h
    | cons c cs =>
      have hd : (c :: cs).drop (k + 1) = cs.drop k := rfl
      rw [hd] at h ⊢
      rw [ih h]
      cases cs with
      | nil => simp at h
      | cons d ds => exact (List.getLast?_cons_cons (a := c) (b := d) (l := ds)).symm

theorem containsSub_mem {q s : List Char} (h : containsSub q s = true) : ∀ c ∈ q, c ∈ s := by
  induction s with
  | nil =>
    simp only [containsSub, List.isEmpty_iff] at h
    subst h
    simp
  | cons a as ih =>
    simp only [containsSub, Bool.or_eq_true] at h
    rcases h with h | h
    · intro c hc
      exact (List.isPrefixOf_iff_prefix.mp h).subset hc
    · intro c hc
      exact List.mem_cons_of_mem a (ih h c hc)

theorem containsSub_lower_false {q : List Char} (hq : ∃ c ∈ q, isUpperA c = true)
    (s : List Char) : containsSub q (s.map jsToLower) = false := by
  by_contra hcon
  rw [Bool.not_eq_false] at hcon
  obtain ⟨c, hcq, hcu⟩ := hq
  have hmem := containsSub_mem hcon c hcq
  obtain ⟨d, -, hd⟩ := List.mem_map.mp hmem
  rw [← hd] at hcu
  rw [jsToLower_not_upper d] at hcu
  exact Bool.false_ne_true hcu

/-! ## C1 -/

/-- C1: Copy-flow end-to-end result: for the document at path
`"folder/note.md"` with basename `"note"` and lines
`["# Intro", "text", "cursor-here"]`, invoking the copy flow with the cursor
on line 2 and the default template produces exactly
`"[[folder/note#Intro|Intro]]"` handed to the clipboard sink. -/
theorem C1_copy_flow_end_to_end :
    copyLink [S "# Intro", S "text", S "cursor-here"] 2
      (some (S "folder/note.md", S "note")) defaultLinkFormat =
      CopyResult.copied (S "[[folder/note#Intro|Intro]]") := by
  decide

/-! ## C2 -/

/-- C2 counterexample: the claim says every substitution pass replaces only
placeholder occurrences present in the original template, so a value that is
itself placeholder-shaped is inserted verbatim.  But for the template
`"${fileDir}"` with `fileDir = "${headingText}"` the later `headingText` pass
rescans the inserted value: the output is the headingText value `"X"`, not
the verbatim `"${headingText}"`. -/
theorem C2_counterexample :
    renderLink (S "${fileDir}") (S "${headingText}") (S "b") (S "X") = S "X" ∧
      S "X" ≠ S "${headingText}" := by
  constructor
  · decide
  · decide

theorem getSubstitution_one (matched before after : List Char) (c : Char) :
    getSubstitution matched before after [c] = if c == '$' then ['$'] else [c] := rfl

theorem getSubstitution_cons_cons (matched before after : List Char) (c d : Char)
    (rest2 : List Char) :
    getSubstitution matched before after (c :: d :: rest2) =
      (if c == '$' then
        if d == '$' then '$' :: getSubstitution matched before after rest2
        else if d == '&' then matched ++ getSubstitution matched before after rest2
        else if d == backtickChar then before ++ getSubstitution matched before after rest2
        else if d == singleQuoteChar then after ++ getSubstitution matched before after rest2
        else c :: getSubstitution matched before after (d :: rest2)
      else c :: getSubstitution matched before after (d :: rest2)) := rfl

theorem getSubstitution_no_dollar (matched before after : List Char) :
    ∀ {rep : List Char}, '$' ∉ rep → getSubstitution matched before after rep = rep := by
  intro rep
  induction rep with
  | nil => intro _; rfl
  | cons c rest ih =>
    intro h
    have hc : (c == '$') = false := by
      rw [beq_eq_false_iff_ne]
      intro hce
      exact h (hce ▸ List.mem_cons_self c rest)
    cases rest with
    | nil =>
      rw [getSubstitution_one, hc]
      simp
    | cons d rest2 =>
      rw [getSubstitution_cons_cons, hc]
      simp only [Bool.false_eq_true, if_false]
      rw [ih (fun hm => h (List.mem_cons_of_mem c hm))]

/-- C2 amended: substitution is three sequential global `replaceAll` passes in
the fixed order `fileDir`, `fileBasename`, `headingText`, each rescanning the
whole intermediate string, and each occurrence is replaced by GetSubstitution
of the value (so `$$`, `$&`, a `$`-backquote and a `$`-quote inside a value
are interpreted, everything else is literal).  A headingText value free of
`$` is inserted verbatim and never rescanned (the spec's own example has no
`$`-pattern and holds), the headingText value `"$&"` renders as the matched
placeholder text itself, and a fileDir value — after GetSubstitution — is
still subject to the two later passes. -/
theorem C2_amended_sequential_passes :
    (∀ d b h : List Char, '$' ∉ h → renderLink (S "${headingText}") d b h = h) ∧
      (∀ d b : List Char, renderLink (S "${headingText}") d b (S "$&") = S "${headingText}") ∧
      (∀ d b h : List Char,
        renderLink (S "${fileDir}") d b h =
          replaceAll (replaceAll (getSubstitution (S "${fileDir}") [] [] d)
            (S "${fileBasename}") b) (S "${headingText}") h) := by
  refine ⟨?_, ?_, ?_⟩
  · intro d b h hd
    show getSubstitution (S "${headingText}") [] [] h ++ ([] : List Char) = h
    rw [List.append_nil]
    exact getSubstitution_no_dollar (S "${headingText}") [] [] hd
  · intro d b
    show (S "${headingText}" ++ ([] : List Char)) ++ ([] : List Char) = S "${headingText}"
    simp
  · intro d b h
    show replaceAll (replaceAll (getSubstitution (S "${fileDir}") [] [] d ++ [])
        (S "${fileBasename}") b) (S "${headingText}") h =
      replaceAll (replaceAll (getSubstitution (S "${fileDir}") [] [] d)
        (S "${fileBasename}") b) (S "${headingText}") h
    rw [List.append_nil]

/-- C2 amended witness: a `$`-free headingText value is rendered verbatim. -/
theorem C2_amended_witness :
    renderLink (S "${headingText}") (S "a") (S "b") (S "Intro") = S "Intro" :=
  C2_amended_sequential_passes.1 (S "a") (S "b") (S "Intro") (by decide)

/-! ## C10 -/

/-- C10: the empty-selection guard of `matchLink` fires exactly for the
empty selection (the `Notice('No text selected!')` branch, modelled as
`none`); any other selection — whitespace-only included — opens the search
session with the lower-cased selection as its initial query. -/
theorem C10_empty_selection_guard (s : List Char) :
    (matchLink s = none ↔ s = []) ∧ (s ≠ [] → matchLink s = some (s.map jsToLower)) := by
  unfold matchLink
  constructor
  · constructor
    · intro h
      by_cases hs : (s.map jsToLower).isEmpty
      · rw [List.isEmpty_iff, List.map_eq_nil_iff] at hs
        exact hs
      · simp [hs] at h
    · intro h
      subst h
      simp
  · intro h
    have : (s.map jsToLower).isEmpty = false := by
      rw [Bool.eq_false_iff]
      intro hc
      rw [List.isEmpty_iff, List.map_eq_nil_iff] at hc
      exact h hc
    simp [this]

/-- C10 witness: the whitespace-only selection `" "` is accepted and becomes
the initial query verbatim (it is already lower-case). -/
theorem C10_witness : matchLink (S " ") = some (S " ") := by
  have h := (C10_empty_selection_guard (S " ")).2 (by decide)
  exact h.trans (by decide)

/-! ## C5 and C9: the nearest-heading resolver -/

theorem resolve_eq_find (lines : List (List Char)) (cursor : Nat) :
    resolveNearestHeading lines cursor =
      (((List.range (cursor + 1)).reverse.find? (fun i => looseHeadLine (lines.getD i []))).map
        (fun i => stripHash (jsTrim (lines.getD i [])))) := by
  induction cursor with
  | zero =>
    have h0 : (List.range (0 + 1)).reverse = [0] := rfl
    rw [h0]
    show (if startsWithHash (jsTrim (lines.getD 0 [])) then some (stripHash (jsTrim (lines.getD 0 [])))
      else none) = _
    cases h : startsWithHash (jsTrim (lines.getD 0 [])) with
    | false =>
      rw [List.find?_cons_of_neg _ (by show ¬ looseHeadLine (lines.getD 0 []) = true; unfold looseHeadLine; rw [h]; simp)]
      simp [List.find?]
    | true =>
      rw [List.find?_cons_of_pos _ (by show looseHeadLine (lines.getD 0 []) = true; unfold looseHeadLine; rw [h])]
      simp
  | succ i ih =>
    have hr : (List.range (i + 1 + 1)).reverse = (i + 1) :: (List.range (i + 1)).reverse := by
      rw [List.range_succ, List.reverse_append]
      rfl
    rw [hr]
    show (if startsWithHash (jsTrim (lines.getD (i + 1) [])) then
        some (stripHash (jsTrim (lines.getD (i + 1) [])))
      else resolveNearestHeading lines i) = _
    cases h : startsWithHash (jsTrim (lines.getD (i + 1) [])) with
    | false =>
      rw [List.find?_cons_of_neg _ (by show ¬ looseHeadLine (lines.getD (i + 1) []) = true; unfold looseHeadLine; rw [h]; simp)]
      simpa using ih
    | true =>
      rw [List.find?_cons_of_pos _ (by show looseHeadLine (lines.getD (i + 1) []) = true; unfold looseHeadLine; rw [h])]
      simp

theorem resolve_some_exists {lines : List (List Char)} {cursor : Nat} {t : List Char}
    (h : resolveNearestHeading lines cursor = some t) :
    ∃ i, i ≤ cursor ∧ looseHeadLine (lines.getD i []) = true := by
  induction cursor with
  | zero =>
    cases hh : startsWithHash (jsTrim (lines.getD 0 [])) with
    | true => exact ⟨0, Nat.le_refl 0, by unfold looseHeadLine; rw [hh]⟩
    | false =>
      exfalso
      have h' : (if startsWithHash (jsTrim (lines.getD 0 [])) then
          some (stripHash (jsTrim (lines.getD 0 []))) else none) = some t := h
      rw [hh] at h'
      simp at h'
  | succ i ih =>
    cases hh : startsWithHash (jsTrim (lines.getD (i + 1) [])) with
    | true => exact ⟨i + 1, Nat.le_refl _, by unfold looseHeadLine; rw [hh]⟩
    | false =>
      have h' : (if startsWithHash (jsTrim (lines.getD (i + 1) [])) then
          some (stripHash (jsTrim (lines.getD (i + 1) []))) else
            resolveNearestHeading lines i) = some t := h
      rw [hh] at h'
      simp only [Bool.false_eq_true, if_false] at h'
      obtain ⟨j, hj, hl⟩ := ih h'
      exact ⟨j, by omega, hl⟩

/-- C5: nearest-heading resolution scans lines from the cursor line down to
line 0 inclusive (the cursor line itself counts) and returns the stripped
text of the first heading line it meets, headings being detected by the loose
trimmed-`startsWith('#')` rule; when no line in that range is a heading, the
resolver yields nothing and the copy flow ends in the `noHeading` outcome
(user notice, no clipboard write). -/
theorem C5_nearest_heading_resolution (lines : List (List Char)) (cursor : Nat)
    (file : Option (List Char × List Char)) (fmt : List Char) :
    resolveNearestHeading lines cursor =
      (((List.range (cursor + 1)).reverse.find? (fun i => looseHeadLine (lines.getD i []))).map
        (fun i => stripHash (jsTrim (lines.getD i [])))) ∧
      (resolveNearestHeading lines cursor = none →
        copyLink lines cursor file fmt = CopyResult.noHeading) := by
  refine ⟨resolve_eq_find lines cursor, ?_⟩
  intro h
  unfold copyLink
  rw [h]

/-- C5 witness: a document with no heading line resolves to nothing and the
copy flow aborts in the `noHeading` outcome. -/
theorem C5_witness : copyLink [S "plain text"] 0 (some (S "a/b.md", S "b")) defaultLinkFormat =
    CopyResult.noHeading :=
  (C5_nearest_heading_resolution [S "plain text"] 0 (some (S "a/b.md", S "b"))
    defaultLinkFormat).2 (by decide)

/-- C9: when the nearest heading line above the cursor strips to the empty
string (a line of `#` characters optionally followed by whitespace), the copy
flow takes the `noHeading` branch — notice shown, nothing written to the
clipboard — even though a line at or above the cursor does satisfy the loose
heading-detection rule. -/
theorem C9_empty_heading_treated_as_not_found (lines : List (List Char)) (cursor : Nat)
    (file : Option (List Char × List Char)) (fmt : List Char)
    (h : resolveNearestHeading lines cursor = some []) :
    (∃ i, i ≤ cursor ∧ looseHeadLine (lines.getD i []) = true) ∧
      copyLink lines cursor file fmt = CopyResult.noHeading := by
  refine ⟨resolve_some_exists h, ?_⟩
  unfold copyLink
  rw [h]
  rfl

/-- C9 witness: on the one-line document `"##"` the resolver returns the empty
heading text and the copy flow aborts although a loose heading line exists. -/
theorem C9_witness :
    (∃ i, i ≤ 0 ∧ looseHeadLine ([S "##"].getD i []) = true) ∧
      copyLink [S "##"] 0 (some (S "a/b.md", S "b")) defaultLinkFormat =
        CopyResult.noHeading :=
  C9_empty_heading_treated_as_not_found [S "##"] 0 (some (S "a/b.md", S "b"))
    defaultLinkFormat (by decide)

/-! ## C8: incomplete search results -/

/-- C8 counterexample: the claim says that when both fields of the selected
result are present the rendered link replaces the selection.  But for the
present-yet-empty heading text `""` the click handler takes the failure
branch: nothing is replaced and the modal stays open. -/
theorem C8_counterexample :
    (onResultClick (some (S "a.md")) (some (S "")) defaultLinkFormat).replaced = none ∧
      (onResultClick (some (S "a.md")) (some (S "")) defaultLinkFormat).modalClosed = false := by
  decide

/-- C8 amended: the guard `if (!filePath || !selectedHeading)` treats a
missing field AND an empty-string field alike: if the path or the heading
text is `null` or `""`, the handler shows the failure notice, replaces
nothing and leaves the modal open; only when both are present and non-empty
does the rendered link replace the selection, after which the modal is
closed. -/
theorem C8_amended_incomplete_or_empty (pO hO : Option (List Char)) (fmt : List Char) :
    (onResultClick pO hO fmt = ⟨none, false, S "Failed to retrieve file path or heading."⟩ ↔
      pO = none ∨ hO = none ∨ pO = some [] ∨ hO = some []) ∧
    (∀ p h : List Char, pO = some p → hO = some h → p ≠ [] → h ≠ [] →
      onResultClick pO hO fmt =
        ⟨some (wrapLink (renderLink fmt (fileDirOf p) (fileBasenameOf p) h)), true,
          S "Text replaced with link."⟩) := by
  cases pO with
  | none =>
    refine ⟨by simp [onResultClick], ?_⟩
    intro p h hp
    exact absurd hp (by simp)
  | some p =>
    cases hO with
    | none =>
      refine ⟨by simp [onResultClick], ?_⟩
      intro p' h' hp' hh'
      exact absurd hh' (by simp)
    | some h =>
      constructor
      · by_cases hp : p.isEmpty <;> by_cases hh : h.isEmpty <;>
          simp only [onResultClick, hp, hh, Bool.or_self, Bool.or_true, Bool.true_or,
            Bool.or_false, if_true, if_false, Bool.false_eq_true]
        · simp [List.isEmpty_iff.mp hp]
        · simp [List.isEmpty_iff.mp hp]
        · simp [List.isEmpty_iff.mp hh]
        · have hp' : ¬ p = [] := fun hc => hp (List.isEmpty_iff.mpr hc)
          have hh' : ¬ h = [] := fun hc => hh (List.isEmpty_iff.mpr hc)
          simp [hp', hh']
      · intro p1 h1 hp' hh' hpne hhne
        have hpe : p = p1 := by injection hp'
        have hhe : h = h1 := by injection hh'
        rw [← hpe] at hpne
        rw [← hhe] at hhne
        rw [← hpe, ← hhe]
        have hp : p.isEmpty = false := by
          cases hb : p.isEmpty with
          | false => rfl
          | true => exact absurd (List.isEmpty_iff.mp hb) hpne
        have hh : h.isEmpty = false := by
          cases hb : h.isEmpty with
          | false => rfl
          | true => exact absurd (List.isEmpty_iff.mp hb) hhne
        simp [onResultClick, hp, hh]

/-- C8 amended witness: the spec's own search-flow scenario goes through the
happy path: both fields present and non-empty, selection replaced by the
rendered link, modal closed. -/
theorem C8_amended_witness :
    onResultClick (some (S "x/y.md")) (some (S "Setup Steps")) defaultLinkFormat =
      ⟨some (S "[[x/y#Setup Steps|Setup Steps]]"), true, S "Text replaced with link."⟩ := by
  have h := (C8_amended_incomplete_or_empty (some (S "x/y.md")) (some (S "Setup Steps"))
    defaultLinkFormat).2 (S "x/y.md") (S "Setup Steps") rfl rfl (by decide) (by decide)
  exact h.trans (by decide)

/-! ## C7: fileDir of a selected match -/

theorem lastIdxAux_spec {c : Char} {s : List Char} {k : Nat} (h : lastIdxAux c s = some k) :
    k < s.length ∧ s[k]? = some c := by
  induction s generalizing k with
  | nil => simp [lastIdxAux] at h
  | cons d ds ih =>
    rw [lastIdxAux] at h
    cases hm : lastIdxAux c ds with
    | some j =>
      rw [hm] at h
      obtain rfl : k = j + 1 := by injection h with h'; omega
      obtain ⟨hlt, hget⟩ := ih hm
      exact ⟨by simpa using hlt, by simpa using hget⟩
    | none =>
      rw [hm] at h
      by_cases hd : d == c
      · rw [if_pos hd] at h
        obtain rfl : k = 0 := by injection h with h'; omega
        refine ⟨by simp, ?_⟩
        simp only [List.getElem?_cons_zero, Option.some.injEq]
        exact beq_iff_eq.mp hd
      · rw [if_neg hd] at h
        exact absurd h (by simp)

theorem jsSubstring_zero_neg_one (s : List Char) : jsSubstring s 0 (-1) = [] := by
  show (s.take (max (clampIdx s.length 0) (clampIdx s.length (-1)))).drop
    (min (clampIdx s.length 0) (clampIdx s.length (-1))) = []
  have h0 : clampIdx s.length 0 = 0 := by simp [clampIdx]
  have h1 : clampIdx s.length (-1) = 0 := by simp [clampIdx]
  rw [h0, h1]
  simp

theorem jsSubstring_zero_nat (s : List Char) (k : Nat) (hk : k ≤ s.length) :
    jsSubstring s 0 (k : Int) = s.take k := by
  show (s.take (max (clampIdx s.length 0) (clampIdx s.length (k : Int)))).drop
    (min (clampIdx s.length 0) (clampIdx s.length (k : Int))) = s.take k
  have h0 : clampIdx s.length 0 = 0 := by simp [clampIdx]
  have h1 : clampIdx s.length (k : Int) = k := by
    simp [clampIdx]
    omega
  rw [h0, h1]
  simp

/-- C7: in the search-select flow, `fileDir` — although computed as a
substring of the extension-stripped path — always equals the substring of the
ORIGINAL untouched path up to (exclusive) its last `'/'`; when the path has
no separator, `fileDir` is the empty string. -/
theorem C7_fileDir_from_original_path (p : List Char) :
    fileDirOf p = jsSubstring p 0 (jsLastIndexOf p '/') ∧
      (jsLastIndexOf p '/' = -1 → fileDirOf p = []) := by
  by_cases hsuf : (S ".md").isSuffixOf p
  · obtain ⟨q, hq⟩ : ∃ q, q ++ S ".md" = p := List.isSuffixOf_iff_suffix.mp hsuf
    have hlen : p.length = q.length + 3 := by
      rw [← hq, List.length_append]
      rfl
    have hstrip : stripMd p = q := by
      unfold stripMd
      rw [if_pos hsuf, ← hq]
      have h3 : (q ++ S ".md").length - 3 = q.length := by
        rw [List.length_append]
        rfl
      rw [h3, List.take_left]
    cases hlast : lastIdxAux '/' p with
    | none =>
      have hjs : jsLastIndexOf p '/' = -1 := by unfold jsLastIndexOf; rw [hlast]
      unfold fileDirOf
      rw [hjs, hstrip, jsSubstring_zero_neg_one, jsSubstring_zero_neg_one]
      exact ⟨rfl, fun _ => rfl⟩
    | some k =>
      have hjs : jsLastIndexOf p '/' = (k : Int) := by unfold jsLastIndexOf; rw [hlast]
      obtain ⟨hk, hget⟩ := lastIdxAux_spec hlast
      have hklt : k < q.length := by
        by_contra hge
        push_neg at hge
        have hsplit : p[k]? = (S ".md")[k - q.length]? := by
          rw [← hq]
          exact List.getElem?_append_right hge
        rw [hget] at hsplit
        have hj3 : k - q.length < 3 := by omega
        have hcase : k - q.length = 0 ∨ k - q.length = 1 ∨ k - q.length = 2 := by omega
        rcases hcase with hc | hc | hc <;> rw [hc] at hsplit <;> exact absurd hsplit (by decide)
      constructor
      · unfold fileDirOf
        rw [hjs, hstrip, jsSubstring_zero_nat q k (Nat.le_of_lt hklt),
          jsSubstring_zero_nat p k (by omega)]
        rw [← hq, List.take_append_of_le_length (Nat.le_of_lt hklt)]
      · intro hcon
        rw [hjs] at hcon
        exact absurd hcon (by omega)
  · have hstrip : stripMd p = p := by unfold stripMd; rw [if_neg hsuf]
    constructor
    · unfold fileDirOf
      rw [hstrip]
    · intro h
      unfold fileDirOf
      rw [hstrip, h]
      exact jsSubstring_zero_neg_one p

/-- C7 witness: a separator-free path yields the empty `fileDir`. -/
theorem C7_witness : fileDirOf (S "note.md") = [] :=
  (C7_fileDir_from_original_path (S "note.md")).2 (by decide)

/-! ## C4: case handling of the search query -/

theorem searchDoc_nil_of {p q : List Char} {hs : List (List Char)}
    (h : ∀ x ∈ hs, containsSub q (x.map jsToLower) = false) : searchDoc p hs q = [] := by
  induction hs with
  | nil => rfl
  | cons a as ih =>
    show (if containsSub q (a.map jsToLower) then
      (p, stripHash a) :: searchDoc p as q else searchDoc p as q) = []
    rw [h a (List.mem_cons_self a as)]
    simp only [Bool.false_eq_true, if_false]
    exact ih fun x hx => h x (List.mem_cons_of_mem a hx)

/-- C4 counterexample: the claim says the result set for EVERY query —
including one set by a keystroke after the session opens — equals the result
set for its lower-cased form.  But the keystroke handler stores the typed
value verbatim, so the query `"Intro"` (which the claim says matches
`"# Introduction"`) matches nothing, while its lower-cased form matches. -/
theorem C4_counterexample :
    searchDocs [(S "a.md", S "# Introduction")] (updateQuery (S "Intro")) = [] ∧
      searchDocs [(S "a.md", S "# Introduction")] ((S "Intro").map jsToLower) =
        [(S "a.md", S "Introduction")] := by
  decide

/-- C4 amended: the heading line is lower-cased before the substring test and
the initial query (the triggering selection) is lower-cased, so the search at
session open is invariant under the selection's letter case; but keystroke
updates store the typed value verbatim, so a later query containing an
uppercase ASCII letter matches no heading at all instead of behaving like its
lower-cased form. -/
theorem C4_amended_case_handling :
    (∀ (docs : List (List Char × List Char)) (q : List Char),
      (∃ c ∈ q, isUpperA c = true) → searchDocs docs (updateQuery q) = []) ∧
    (∀ (docs : List (List Char × List Char)) (sel1 sel2 : List Char),
      sel1.map jsToLower = sel2.map jsToLower →
      (matchLink sel1).map (searchDocs docs) = (matchLink sel2).map (searchDocs docs)) := by
  constructor
  · intro docs q hq
    induction docs with
    | nil => rfl
    | cons d ds ih =>
      obtain ⟨pp, content⟩ := d
      show searchDoc pp (jsRegexHeadings content) q ++ searchDocs ds (updateQuery q) = []
      rw [searchDoc_nil_of fun x _ => containsSub_lower_false hq x, ih]
      rfl
  · intro docs s1 s2 hmap
    have hlen : s1.length = s2.length := by
      have := congrArg List.length hmap
      simpa using this
    by_cases h1 : s1 = []
    · have h2 : s2 = [] := by
        rw [← List.length_eq_zero, ← hlen, h1]
        rfl
      subst h1
      subst h2
      rfl
    · have h2 : s2 ≠ [] := by
        intro hc
        apply h1
        rw [← List.length_eq_zero, hlen, hc]
        rfl
      have e1 : (s1.map jsToLower).isEmpty = false := by
        cases hb : (s1.map jsToLower).isEmpty with
        | false => rfl
        | true => exact absurd (List.map_eq_nil_iff.mp (List.isEmpty_iff.mp hb)) h1
      have e2 : (s2.map jsToLower).isEmpty = false := by
        cases hb : (s2.map jsToLower).isEmpty with
        | false => rfl
        | true => exact absurd (List.map_eq_nil_iff.mp (List.isEmpty_iff.mp hb)) h2
      show Option.map (searchDocs docs)
          (if (s1.map jsToLower).isEmpty then none else some (s1.map jsToLower)) =
        Option.map (searchDocs docs)
          (if (s2.map jsToLower).isEmpty then none else some (s2.map jsToLower))
      rw [e1, e2, hmap]

/-- C4 amended witness: a keystroke query containing an uppercase letter
matches nothing. -/
theorem C4_amended_witness :
    searchDocs [(S "a.md", S "# Introduction")] (updateQuery (S "Query")) = [] :=
  C4_amended_case_handling.1 [(S "a.md", S "# Introduction")] (S "Query")
    ⟨'Q', by decide, by decide⟩

/-! ## C6: shape of the produced heading texts -/

theorem stripHash_head_not_ws {l : List Char} (hl : startsWithHash l = true) {c : Char}
    (h : (stripHash l).head? = some c) : isWsJS c = false := by
  unfold stripHash at h
  rw [hl] at h
  simp only [if_true] at h
  exact head?_dropWhile_false isWsJS _ h

theorem stripHash_suffix (l : List Char) : ∃ k, stripHash l = l.drop k := by
  unfold stripHash
  by_cases hl : startsWithHash l
  · rw [hl]
    simp only [if_true]
    obtain ⟨k1, h1⟩ := dropWhile_eq_drop (fun c => c == '#') l
    obtain ⟨k2, h2⟩ := dropWhile_eq_drop isWsJS (l.drop k1)
    rw [h1, h2, List.drop_drop]
    exact ⟨k1 + k2, rfl⟩
  · rw [Bool.not_eq_true] at hl
    rw [hl]
    simp only [Bool.false_eq_true, if_false]
    exact ⟨0, rfl⟩

theorem stripHash_getLast_of_ne_nil {l : List Char} (hne : stripHash l ≠ []) :
    (stripHash l).getLast? = l.getLast? := by
  obtain ⟨k, hk⟩ := stripHash_suffix l
  rw [hk] at hne ⊢
  exact getLast?_drop_of_ne_nil hne

theorem jsTrim_getLast_not_ws {l : List Char} {c : Char} (h : (jsTrim l).getLast? = some c) :
    isWsJS c = false := by
  unfold jsTrim at h
  rw [List.getLast?_reverse] at h
  exact head?_dropWhile_false isWsJS _ h

theorem resolve_some_shape {lines : List (List Char)} {cursor : Nat} {t : List Char}
    (h : resolveNearestHeading lines cursor = some t) :
    ∃ l, startsWithHash (jsTrim l) = true ∧ t = stripHash (jsTrim l) := by
  induction cursor with
  | zero =>
    have h' : (if startsWithHash (jsTrim (lines.getD 0 [])) then
        some (stripHash (jsTrim (lines.getD 0 []))) else none) = some t := h
    cases hh : startsWithHash (jsTrim (lines.getD 0 [])) with
    | true =>
      rw [hh] at h'
      simp only [if_true, Option.some.injEq] at h'
      exact ⟨lines.getD 0 [], hh, h'.symm⟩
    | false =>
      rw [hh] at h'
      simp at h'
  | succ i ih =>
    have h' : (if startsWithHash (jsTrim (lines.getD (i + 1) [])) then
        some (stripHash (jsTrim (lines.getD (i + 1) []))) else
          resolveNearestHeading lines i) = some t := h
    cases hh : startsWithHash (jsTrim (lines.getD (i + 1) [])) with
    | true =>
      rw [hh] at h'
      simp only [if_true, Option.some.injEq] at h'
      exact ⟨lines.getD (i + 1) [], hh, h'.symm⟩
    | false =>
      rw [hh] at h'
      simp only [Bool.false_eq_true, if_false] at h'
      exact ih h'

theorem matchLen_some_head {c : Char} {rest : List Char} {n : Nat}
    (h : matchLenJS (c :: rest) = some n) : c = '#' ∧ 2 ≤ n := by
  have h' : (if c == '#' then
      ((rest.dropWhile (fun d => d == '#')).head?).bind fun d =>
        if isWsJS d then
          some ((rest.takeWhile (fun d => d == '#')).length + 2 +
            ((rest.drop ((rest.takeWhile (fun d => d == '#')).length + 1)).takeWhile
              (fun e => !isLineTerm e)).length)
        else none
    else none) = some n := h
  clear h
  rename' h' => h
  by_cases hc : c == '#'
  · rw [if_pos hc] at h
    cases hh : (rest.dropWhile (fun d => d == '#')).head? with
    | none =>
      rw [hh] at h
      exact absurd h (by simp)
    | some d =>
      rw [hh, Option.some_bind] at h
      by_cases hw : isWsJS d
      · rw [if_pos hw] at h
        refine ⟨beq_iff_eq.mp hc, ?_⟩
        injection h with hn
        omega
      · rw [if_neg hw] at h
        exact absurd h (by simp)
  · rw [if_neg hc] at h
    exact absurd h (by simp)

theorem scanAux_mem_startsHash (fuel : Nat) :
    ∀ (cs : List Char) (f : Bool) (h : List Char), h ∈ scanAux fuel cs f →
      startsWithHash h = true := by
  induction fuel with
  | zero =>
    intro cs f h hm
    simp [scanAux] at hm
  | succ fuel ih =>
    intro cs f h hm
    cases cs with
    | nil => simp [scanAux] at hm
    | cons c cs' =>
      have heq : scanAux (fuel + 1) (c :: cs') f =
          match (if f then matchLenJS (c :: cs') else none) with
          | some n => ((c :: cs').take n) ::
              scanAux fuel (cs'.drop (n - 1)) ((((c :: cs').take n).getLast?).any isLineTerm)
          | none => scanAux fuel cs' (isLineTerm c) := rfl
      rw [heq] at hm
      cases hf : (if f then matchLenJS (c :: cs') else none) with
      | none =>
        rw [hf] at hm
        exact ih _ _ _ hm
      | some n =>
        rw [hf] at hm
        have hml : matchLenJS (c :: cs') = some n := by
          cases f with
          | false => simp at hf
          | true => simpa using hf
        rcases List.mem_cons.mp hm with hh | hh
        · obtain ⟨hc, hn⟩ := matchLen_some_head hml
          subst hc
          obtain ⟨m, rfl⟩ : ∃ m, n = m + 1 := ⟨n - 1, by omega⟩
          rw [List.take_succ_cons] at hh
          subst hh
          rfl
        · exact ih _ _ _ hh

/-- C6 counterexample: the claim says a produced heading text never has a
leading `'#'` and never has surrounding whitespace.  But the copy flow on the
line `"## #tag"` produces `"#tag"` (leading `'#'`), and the search flow on
the line `"# A "` produces `"A "` (trailing whitespace). -/
theorem C6_counterexample :
    (resolveNearestHeading [S "## #tag"] 0 = some (S "#tag") ∧
        (S "#tag").head? = some '#') ∧
      (jsRegexHeadings (S "# A ") = [S "# A "] ∧ stripHash (S "# A ") = S "A " ∧
        (S "A ").getLast? = some ' ') := by
  decide

/-- C6 amended: heading texts produced by either flow never begin with
whitespace, and the copy flow's heading text also never ends with whitespace
(its source line is trimmed first); however, the strip removes only the
FIRST `'#'` run plus the whitespace right after it, so a remaining `'#'` can
begin the text, and search-flow heading texts keep any trailing whitespace of
the matched line. -/
theorem C6_amended_heading_text_invariant :
    (∀ (lines : List (List Char)) (cursor : Nat) (t : List Char),
      resolveNearestHeading lines cursor = some t →
        (∀ c, t.head? = some c → isWsJS c = false) ∧
        (∀ c, t.getLast? = some c → isWsJS c = false)) ∧
    (∀ (content h : List Char), h ∈ jsRegexHeadings content →
        ∀ c, (stripHash h).head? = some c → isWsJS c = false) := by
  constructor
  · intro lines cursor t ht
    obtain ⟨l, hl, rfl⟩ := resolve_some_shape ht
    constructor
    · intro c hc
      exact stripHash_head_not_ws hl hc
    · intro c hc
      have hne : stripHash (jsTrim l) ≠ [] := by
        intro hnil
        rw [hnil] at hc
        simp at hc
      rw [stripHash_getLast_of_ne_nil hne] at hc
      exact jsTrim_getLast_not_ws hc
  · intro content h hm c hc
    exact stripHash_head_not_ws (scanAux_mem_startsHash _ _ _ _ hm) hc

/-- C6 amended witness: the heading text `"A"` extracted from `"# A"` indeed
starts with a non-whitespace character. -/
theorem C6_amended_witness : isWsJS 'A' = false :=
  (C6_amended_heading_text_invariant.1 [S "# A"] 0 (S "A") (by decide)).1 'A' (by decide)

/-! ## C3: which lines the search-flow regex scan finds -/

theorem getLast?_mem {l : List Char} {a : Char} (h : l.getLast? = some a) : a ∈ l := by
  induction l with
  | nil => simp at h
  | cons c cs ih =>
    cases cs with
    | nil =>
      simp at h
      simp [h]
    | cons d ds =>
      rw [List.getLast?_cons_cons] at h
      exact List.mem_cons_of_mem c (ih h)

theorem takeWhile_eq_self_of (p : Char → Bool) (l : List Char)
    (h : ∀ a ∈ l, p a = true) : l.takeWhile p = l := by
  induction l with
  | nil => rfl
  | cons c cs ih =>
    rw [List.takeWhile_cons, h c (List.mem_cons_self c cs), if_pos rfl,
      ih fun a ha => h a (List.mem_cons_of_mem c ha)]

theorem scanAux_nil (fuel : Nat) (f : Bool) : scanAux fuel [] f = [] := by
  cases fuel with
  | zero => rfl
  | succ fuel => rfl

theorem scanAux_fuel_irrel (fuel1 : Nat) :
    ∀ (fuel2 : Nat) (cs : List Char) (f : Bool), cs.length ≤ fuel1 → cs.length ≤ fuel2 →
      scanAux fuel1 cs f = scanAux fuel2 cs f := by
  induction fuel1 with
  | zero =>
    intro fuel2 cs f h1 h2
    have : cs = [] := by
      rw [← List.length_eq_zero]
      omega
    subst this
    rw [scanAux_nil, scanAux_nil]
  | succ fuel1 ih =>
    intro fuel2 cs f h1 h2
    cases cs with
    | nil => rw [scanAux_nil, scanAux_nil]
    | cons c cs' =>
      cases fuel2 with
      | zero => simp at h2
      | succ fuel2 =>
        have heq1 : scanAux (fuel1 + 1) (c :: cs') f =
            match (if f then matchLenJS (c :: cs') else none) with
            | some n => ((c :: cs').take n) ::
                scanAux fuel1 (cs'.drop (n - 1)) ((((c :: cs').take n).getLast?).any isLineTerm)
            | none => scanAux fuel1 cs' (isLineTerm c) := rfl
        have heq2 : scanAux (fuel2 + 1) (c :: cs') f =
            match (if f then matchLenJS (c :: cs') else none) with
            | some n => ((c :: cs').take n) ::
                scanAux fuel2 (cs'.drop (n - 1)) ((((c :: cs').take n).getLast?).any isLineTerm)
            | none => scanAux fuel2 cs' (isLineTerm c) := rfl
        rw [heq1, heq2]
        cases hm : (if f then matchLenJS (c :: cs') else none) with
        | none =>
          exact ih fuel2 cs' (isLineTerm c) (by simp at h1; omega) (by simp at h2; omega)
        | some n =>
          have hlen : (cs'.drop (n - 1)).length ≤ cs'.length := by
            rw [List.length_drop]
            omega
          exact congrArg (List.cons _)
            (ih fuel2 _ _ (by simp at h1; omega) (by simp at h2; omega))

theorem scanAux_skip (x : List Char) :
    ∀ (r : List Char) (fuel : Nat), (∀ c ∈ x, isLineTerm c = false) →
      (x ++ r).length ≤ fuel →
      scanAux fuel (x ++ r) false = scanAux (fuel - x.length) r false := by
  induction x with
  | nil =>
    intro r fuel htf hfuel
    simp
  | cons c x' ih =>
    intro r fuel htf hfuel
    cases fuel with
    | zero => simp at hfuel
    | succ fuel =>
      have heq : scanAux (fuel + 1) (c :: (x' ++ r)) false =
          scanAux fuel (x' ++ r) (isLineTerm c) := rfl
      show scanAux (fuel + 1) (c :: (x' ++ r)) false = _
      rw [heq, htf c (List.mem_cons_self c x')]
      rw [ih r fuel (fun a ha => htf a (List.mem_cons_of_mem c ha))
        (by simp at hfuel ⊢; omega)]
      have harith : fuel - x'.length = fuel + 1 - (c :: x').length := by
        simp only [List.length_cons]
        omega
      rw [harith]

theorem matchLenJS_cons (c : Char) (rest : List Char) :
    matchLenJS (c :: rest) =
      (if c == '#' then
        ((rest.dropWhile (fun d => d == '#')).head?).bind fun d =>
          if isWsJS d then
            some ((rest.takeWhile (fun d => d == '#')).length + 2 +
              ((rest.drop ((rest.takeWhile (fun d => d == '#')).length + 1)).takeWhile
                (fun e => !isLineTerm e)).length)
          else none
      else none) := rfl

theorem matchLen_decomp (T B r : List Char) (d : Char)
    (hT : ∀ a ∈ T, (a == '#') = true) (hd : isWsJS d = true)
    (hB : ∀ a ∈ B, isLineTerm a = false)
    (hr : r = [] ∨ ∃ t, r = '\n' :: t) :
    matchLenJS ('#' :: (T ++ d :: (B ++ r))) = some (T.length + 2 + B.length) := by
  have hdnh : (d == '#') = false := by
    rw [beq_eq_false_iff_ne]
    intro hc
    subst hc
    exact absurd hd (by decide)
  have hdrop : (T ++ d :: (B ++ r)).dropWhile (fun x => x == '#') = d :: (B ++ r) := by
    rw [List.dropWhile_append_of_pos hT, List.dropWhile_cons, hdnh]
    simp
  have htake : (T ++ d :: (B ++ r)).takeWhile (fun x => x == '#') = T := by
    rw [List.takeWhile_append_of_pos hT, List.takeWhile_cons, hdnh]
    simp
  have hdrop2 : (T ++ d :: (B ++ r)).drop (T.length + 1) = B ++ r := by
    have hre : T ++ d :: (B ++ r) = (T ++ [d]) ++ (B ++ r) := by simp
    rw [hre]
    exact List.drop_left' (by simp)
  have hbody : (B ++ r).takeWhile (fun e => !isLineTerm e) = B := by
    rcases hr with rfl | ⟨t, rfl⟩
    · rw [List.append_nil]
      exact takeWhile_eq_self_of _ B fun a ha => by rw [hB a ha]; rfl
    · rw [List.takeWhile_append_of_pos (fun a ha => by rw [hB a ha]; rfl),
        List.takeWhile_cons]
      have hnl : (!isLineTerm '\n') = false := rfl
      rw [hnl]
      simp
  rw [matchLenJS_cons, if_pos (beq_self_eq_true '#'), hdrop, htake]
  simp only [List.head?_cons, Option.some_bind]
  rw [if_pos hd, hdrop2, hbody]

theorem matchLen_strict {l : List Char} (htf : ∀ c ∈ l, isLineTerm c = false)
    (hs : strictHeadLine l = true) (r : List Char) (hr : r = [] ∨ ∃ t, r = '\n' :: t) :
    matchLenJS (l ++ r) = some l.length := by
  unfold strictHeadLine at hs
  rw [Bool.and_eq_true] at hs
  obtain ⟨hsw, hany⟩ := hs
  obtain ⟨c, l1, rfl⟩ : ∃ c l1, l = c :: l1 := by
    cases l with
    | nil => simp [startsWithHash] at hsw
    | cons c l1 => exact ⟨c, l1, rfl⟩
  have hc : c = '#' := by
    have hb : (c == '#') = true := hsw
    exact beq_iff_eq.mp hb
  subst hc
  have hdwc : ('#' :: l1).dropWhile (fun x => x == '#') = l1.dropWhile (fun x => x == '#') := by
    rw [List.dropWhile_cons]
    simp
  rw [hdwc] at hany
  cases hD : l1.dropWhile (fun x => x == '#') with
  | nil =>
    rw [hD] at hany
    simp at hany
  | cons d B =>
    rw [hD] at hany
    have hdws : isWsJS d = true := by simpa using hany
    have hTD : l1.takeWhile (fun x => x == '#') ++ (d :: B) = l1 := by
      rw [← hD]
      exact List.takeWhile_append_dropWhile _ _
    set T := l1.takeWhile (fun x => x == '#') with hTdef
    have hT : ∀ a ∈ T, (a == '#') = true := by
      rw [hTdef]
      exact fun a ha => List.mem_takeWhile_imp (p := fun x => x == '#') ha
    have hB : ∀ a ∈ B, isLineTerm a = false := by
      intro a ha
      apply htf
      apply List.mem_cons_of_mem
      rw [← hTD]
      exact List.mem_append_right T (List.mem_cons_of_mem d ha)
    have hkey := matchLen_decomp T B r d hT hdws hB hr
    have hform : ('#' :: l1) ++ r = '#' :: (T ++ d :: (B ++ r)) := by
      rw [← hTD]
      simp
    rw [hform, hkey]
    congr 1
    have hlen : l1.length = T.length + 1 + B.length := by
      rw [← hTD]
      simp only [List.length_append, List.length_cons]
      omega
    rw [show ('#' :: l1).length = l1.length + 1 from rfl, hlen]
    omega

theorem matchLen_nonstrict {l : List Char}
    (hnah : l ≠ [] → ∃ c ∈ l, c ≠ '#')
    (hs : strictHeadLine l = false) (r : List Char) (hr : r = [] ∨ ∃ t, r = '\n' :: t) :
    matchLenJS (l ++ r) = none := by
  cases l with
  | nil =>
    rcases hr with rfl | ⟨t, rfl⟩
    · rfl
    · show matchLenJS ('\n' :: t) = none
      rw [matchLenJS_cons, if_neg (by decide)]
  | cons c l1 =>
    by_cases hc : (c == '#') = true
    · have hc' : c = '#' := beq_iff_eq.mp hc
      subst hc'
      obtain ⟨e, he, hne⟩ := hnah (by simp)
      have hel : e ∈ l1 := by
        rcases List.mem_cons.mp he with h1 | h1
        · exact absurd h1 hne
        · exact h1
      have hD : l1.dropWhile (fun x => x == '#') ≠ [] := by
        intro hnil
        rw [List.dropWhile_eq_nil_iff] at hnil
        exact hne (beq_iff_eq.mp (hnil e hel))
      obtain ⟨d, B, hdB⟩ : ∃ d B, l1.dropWhile (fun x => x == '#') = d :: B := by
        cases hx : l1.dropWhile (fun x => x == '#') with
        | nil => exact absurd hx hD
        | cons d B => exact ⟨d, B, rfl⟩
      have hdnh : (d == '#') = false := by
        apply head?_dropWhile_false (fun x => x == '#') l1
        rw [hdB]
        rfl
      have hdw : isWsJS d = false := by
        unfold strictHeadLine at hs
        have h1 : startsWithHash ('#' :: l1) = true := rfl
        rw [h1, Bool.true_and] at hs
        have h2 : ('#' :: l1).dropWhile (fun x => x == '#') =
            l1.dropWhile (fun x => x == '#') := by
          rw [List.dropWhile_cons]
          simp
        rw [h2, hdB] at hs
        simpa using hs
      have hTD : l1.takeWhile (fun x => x == '#') ++ (d :: B) = l1 := by
        rw [← hdB]
        exact List.takeWhile_append_dropWhile _ _
      have hdrop : (l1 ++ r).dropWhile (fun x => x == '#') = d :: (B ++ r) := by
        conv_lhs => rw [← hTD]
        rw [List.append_assoc]
        rw [show (d :: B) ++ r = d :: (B ++ r) from rfl]
        rw [List.dropWhile_append_of_pos
          (fun a ha => List.mem_takeWhile_imp (p := fun x => x == '#') ha),
          List.dropWhile_cons]
        simp [hdnh]
      show matchLenJS ('#' :: (l1 ++ r)) = none
      rw [matchLenJS_cons, if_pos (beq_self_eq_true '#'), hdrop]
      simp only [List.head?_cons, Option.some_bind]
      rw [if_neg (by rw [hdw]; exact Bool.false_ne_true)]
    · show matchLenJS (c :: (l1 ++ r)) = none
      rw [matchLenJS_cons, if_neg hc]

theorem scanAux_cons_some {c : Char} {cs : List Char} {n : Nat} (fuel : Nat)
    (h : matchLenJS (c :: cs) = some n) :
    scanAux (fuel + 1) (c :: cs) true =
      ((c :: cs).take n) ::
        scanAux fuel (cs.drop (n - 1)) ((((c :: cs).take n).getLast?).any isLineTerm) := by
  have heq : scanAux (fuel + 1) (c :: cs) true =
      match matchLenJS (c :: cs) with
      | some n => ((c :: cs).take n) ::
          scanAux fuel (cs.drop (n - 1)) ((((c :: cs).take n).getLast?).any isLineTerm)
      | none => scanAux fuel cs (isLineTerm c) := rfl
  rw [heq, h]

theorem scanAux_cons_none {c : Char} {cs : List Char} (fuel : Nat)
    (h : matchLenJS (c :: cs) = none) :
    scanAux (fuel + 1) (c :: cs) true = scanAux fuel cs (isLineTerm c) := by
  have heq : scanAux (fuel + 1) (c :: cs) true =
      match matchLenJS (c :: cs) with
      | some n => ((c :: cs).take n) ::
          scanAux fuel (cs.drop (n - 1)) ((((c :: cs).take n).getLast?).any isLineTerm)
      | none => scanAux fuel cs (isLineTerm c) := rfl
  rw [heq, h]

theorem scan_step_mid (l t : List Char) (fuel : Nat)
    (htf : ∀ c ∈ l, isLineTerm c = false)
    (hnah : l ≠ [] → ∃ c ∈ l, c ≠ '#')
    (hfuel : (l ++ '\n' :: t).length ≤ fuel) :
    scanAux fuel (l ++ '\n' :: t) true =
      (if strictHeadLine l then [l] else []) ++ scanAux t.length t true := by
  by_cases hs : strictHeadLine l
  · obtain ⟨c, l1, rfl⟩ : ∃ c l1, l = c :: l1 := by
      cases l with
      | nil => simp [strictHeadLine, startsWithHash] at hs
      | cons c l1 => exact ⟨c, l1, rfl⟩
    obtain ⟨f1, rfl⟩ : ∃ f1, fuel = f1 + 1 := by
      refine ⟨fuel - 1, ?_⟩
      simp only [List.length_append, List.length_cons] at hfuel
      omega
    have hml : matchLenJS (c :: (l1 ++ '\n' :: t)) = some (c :: l1).length :=
      matchLen_strict htf hs ('\n' :: t) (Or.inr ⟨t, rfl⟩)
    show scanAux (f1 + 1) (c :: (l1 ++ '\n' :: t)) true = _
    rw [scanAux_cons_some f1 hml]
    have htake : (c :: (l1 ++ '\n' :: t)).take ((c :: l1).length) = c :: l1 := by
      rw [show (c :: l1).length = l1.length + 1 from rfl, List.take_succ_cons]
      congr 1
      exact List.take_left l1 ('\n' :: t)
    rw [htake]
    have hdrop : (l1 ++ '\n' :: t).drop ((c :: l1).length - 1) = '\n' :: t := by
      rw [show (c :: l1).length - 1 = l1.length from by simp]
      exact List.drop_left l1 ('\n' :: t)
    rw [hdrop]
    have hflag : (((c :: l1).getLast?).any isLineTerm) = false := by
      cases hgl : (c :: l1).getLast? with
      | none => rfl
      | some a => simpa using htf a (getLast?_mem hgl)
    rw [hflag, if_pos hs]
    show (c :: l1) :: scanAux f1 ('\n' :: t) false = (c :: l1) :: scanAux t.length t true
    congr 1
    obtain ⟨f2, rfl⟩ : ∃ f2, f1 = f2 + 1 := by
      refine ⟨f1 - 1, ?_⟩
      simp only [List.length_append, List.length_cons] at hfuel
      omega
    rw [show scanAux (f2 + 1) ('\n' :: t) false = scanAux f2 t (isLineTerm '\n') from rfl]
    rw [show isLineTerm '\n' = true from rfl]
    apply scanAux_fuel_irrel
    · simp only [List.length_append, List.length_cons] at hfuel
      omega
    · exact Nat.le_refl _
  · cases l with
    | nil =>
      show scanAux fuel ('\n' :: t) true = [] ++ scanAux t.length t true
      rw [List.nil_append]
      obtain ⟨f1, rfl⟩ : ∃ f1, fuel = f1 + 1 := by
        refine ⟨fuel - 1, ?_⟩
        simp only [List.nil_append, List.length_cons] at hfuel
        omega
      have hml : matchLenJS ('\n' :: t) = none := by
        rw [matchLenJS_cons, if_neg (by decide)]
      rw [scanAux_cons_none f1 hml]
      rw [show isLineTerm '\n' = true from rfl]
      apply scanAux_fuel_irrel
      · simp only [List.nil_append, List.length_cons] at hfuel
        omega
      · exact Nat.le_refl _
    | cons c l1 =>
      show scanAux fuel (c :: (l1 ++ '\n' :: t)) true = _
      obtain ⟨f1, rfl⟩ : ∃ f1, fuel = f1 + 1 := by
        refine ⟨fuel - 1, ?_⟩
        simp only [List.length_append, List.length_cons] at hfuel
        omega
      have hs' : strictHeadLine (c :: l1) = false := by
        cases hb : strictHeadLine (c :: l1) with
        | false => rfl
        | true => exact absurd hb hs
      have hml : matchLenJS (c :: (l1 ++ '\n' :: t)) = none :=
        matchLen_nonstrict hnah hs' ('\n' :: t) (Or.inr ⟨t, rfl⟩)
      rw [scanAux_cons_none f1 hml]
      rw [htf c (List.mem_cons_self c l1)]
      rw [scanAux_skip l1 ('\n' :: t) f1 (fun a ha => htf a (List.mem_cons_of_mem c ha))
        (by simp only [List.length_append, List.length_cons] at hfuel ⊢; omega)]
      have hgt : t.length + 1 ≤ f1 - l1.length := by
        simp only [List.length_append, List.length_cons] at hfuel
        omega
      obtain ⟨f2, hf2⟩ : ∃ f2, f1 - l1.length = f2 + 1 := ⟨f1 - l1.length - 1, by omega⟩
      rw [hf2]
      rw [show scanAux (f2 + 1) ('\n' :: t) false = scanAux f2 t (isLineTerm '\n') from rfl]
      rw [show isLineTerm '\n' = true from rfl]
      rw [if_neg hs, List.nil_append]
      exact scanAux_fuel_irrel f2 t.length t true (by omega) (Nat.le_refl _)

theorem scan_step_last (l : List Char) (fuel : Nat)
    (htf : ∀ c ∈ l, isLineTerm c = false)
    (hnah : l ≠ [] → ∃ c ∈ l, c ≠ '#')
    (hfuel : l.length ≤ fuel) :
    scanAux fuel l true = if strictHeadLine l then [l] else [] := by
  by_cases hs : strictHeadLine l
  · obtain ⟨c, l1, rfl⟩ : ∃ c l1, l = c :: l1 := by
      cases l with
      | nil => simp [strictHeadLine, startsWithHash] at hs
      | cons c l1 => exact ⟨c, l1, rfl⟩
    obtain ⟨f1, rfl⟩ : ∃ f1, fuel = f1 + 1 := by
      refine ⟨fuel - 1, ?_⟩
      simp only [List.length_cons] at hfuel
      omega
    have hml0 := matchLen_strict htf hs [] (Or.inl rfl)
    rw [List.append_nil] at hml0
    rw [scanAux_cons_some f1 hml0]
    rw [List.take_length (c :: l1)]
    have hdrop : l1.drop ((c :: l1).length - 1) = [] := by
      rw [show (c :: l1).length - 1 = l1.length from by simp]
      exact List.drop_length l1
    rw [hdrop, scanAux_nil, if_pos hs]
  · cases l with
    | nil =>
      rw [scanAux_nil]
      rfl
    | cons c l1 =>
      obtain ⟨f1, rfl⟩ : ∃ f1, fuel = f1 + 1 := by
        refine ⟨fuel - 1, ?_⟩
        simp only [List.length_cons] at hfuel
        omega
      have hs' : strictHeadLine (c :: l1) = false := by
        cases hb : strictHeadLine (c :: l1) with
        | false => rfl
        | true => exact absurd hb hs
      have hml0 := matchLen_nonstrict hnah hs' [] (Or.inl rfl)
      rw [List.append_nil] at hml0
      rw [scanAux_cons_none f1 hml0]
      rw [htf c (List.mem_cons_self c l1)]
      have hskip := scanAux_skip l1 [] f1 (fun a ha => htf a (List.mem_cons_of_mem c ha))
        (by simp only [List.append_nil, List.length_cons] at hfuel ⊢; omega)
      rw [List.append_nil] at hskip
      rw [hskip, scanAux_nil, if_neg hs]

theorem head?_eq_hash_startsWith {l : List Char} (h : l.head? = some '#') :
    startsWithHash l = true := by
  cases l with
  | nil => simp at h
  | cons c cs =>
    simp only [List.head?_cons, Option.some.injEq] at h
    subst h
    rfl

theorem strict_implies_loose {l : List Char} (hs : strictHeadLine l = true) :
    looseHeadLine l = true := by
  have hsw : startsWithHash l = true := by
    unfold strictHeadLine at hs
    rw [Bool.and_eq_true] at hs
    exact hs.1
  obtain ⟨c, l1, rfl⟩ : ∃ c l1, l = c :: l1 := by
    cases l with
    | nil => simp [startsWithHash] at hsw
    | cons c l1 => exact ⟨c, l1, rfl⟩
  have hc : c = '#' := by
    have hb : (c == '#') = true := hsw
    exact beq_iff_eq.mp hb
  subst hc
  unfold looseHeadLine jsTrim
  have h1 : ('#' :: l1).dropWhile isWsJS = '#' :: l1 := by
    rw [List.dropWhile_cons]
    have hws : isWsJS '#' = false := rfl
    rw [hws]
    simp
  rw [h1]
  apply head?_eq_hash_startsWith
  rw [List.head?_reverse]
  obtain ⟨k, hk⟩ := dropWhile_eq_drop isWsJS (('#' :: l1).reverse)
  rw [hk]
  have hne : (('#' :: l1).reverse).drop k ≠ [] := by
    rw [← hk]
    intro hnil
    rw [List.dropWhile_eq_nil_iff] at hnil
    have hin := hnil '#' (by simp)
    exact absurd hin (by decide)
  rw [getLast?_drop_of_ne_nil hne, List.getLast?_reverse]
  rfl

/-- C3 counterexample: the claim says the search flow detects headings by the
loose §4.1 rule (trim, then one or more `#`, no space required after the `#`
run, leading whitespace allowed).  But the scan of `/^#+\s.*$/gm` finds NO
heading in `"#Intro"` (no whitespace after the `#` run) nor in
`"  # Intro"` (leading whitespace), although both lines satisfy the loose
rule used by the copy flow. -/
theorem C3_counterexample :
    (jsRegexHeadings (S "#Intro") = [] ∧ looseHeadLine (S "#Intro") = true) ∧
      (jsRegexHeadings (S "  # Intro") = [] ∧ looseHeadLine (S "  # Intro") = true) := by
  decide

/-- C3 amended: the heading-search flow does NOT use §4.1's loose rule; it
matches the regex `^#+\s.*$` over the full content.  For a document whose
lines are free of line terminators and where no line is a nonempty all-`#`
run (such a line would make a regex match span the following line), the
matches are exactly the lines that begin — without leading whitespace — with
one or more `#` immediately followed by a whitespace character.  This strict
rule accepts only a subset of the loose §4.1 rule. -/
theorem C3_amended_strict_regex :
    (∀ lines : List (List Char),
      (∀ l ∈ lines, ∀ c ∈ l, isLineTerm c = false) →
      (∀ l ∈ lines, l ≠ [] → ∃ c ∈ l, c ≠ '#') →
      jsRegexHeadings (joinLines lines) = lines.filter strictHeadLine) ∧
    (∀ l : List Char, strictHeadLine l = true → looseHeadLine l = true) := by
  constructor
  · intro lines
    induction lines with
    | nil =>
      intro _ _
      rfl
    | cons l ls ih =>
      intro htf hnah
      cases ls with
      | nil =>
        show scanAux l.length l true = List.filter strictHeadLine [l]
        rw [scan_step_last l l.length (htf l (by simp)) (hnah l (by simp)) (Nat.le_refl _)]
        rw [List.filter_cons]
        by_cases hs : strictHeadLine l <;> simp [hs]
      | cons l2 ls2 =>
        show scanAux (l ++ '\n' :: joinLines (l2 :: ls2)).length
            (l ++ '\n' :: joinLines (l2 :: ls2)) true = _
        rw [scan_step_mid l (joinLines (l2 :: ls2)) _
          (htf l (by simp)) (hnah l (by simp)) (Nat.le_refl _)]
        have hih := ih (fun x hx => htf x (List.mem_cons_of_mem l hx))
          (fun x hx => hnah x (List.mem_cons_of_mem l hx))
        rw [show scanAux (joinLines (l2 :: ls2)).length (joinLines (l2 :: ls2)) true =
          List.filter strictHeadLine (l2 :: ls2) from hih]
        rw [List.filter_cons]
        by_cases hs : strictHeadLine l <;> simp [hs, List.filter_cons]
  · exact fun l hs => strict_implies_loose hs

/-- C3 amended witness: on the three-line document `"# A\nx\n## B here"` the
scan finds exactly the two strict heading lines. -/
theorem C3_amended_witness :
    jsRegexHeadings (joinLines [S "# A", S "x", S "## B here"]) =
      [S "# A", S "## B here"] := by
  have h := C3_amended_strict_regex.1 [S "# A", S "x", S "## B here"] (by decide) (by decide)
  exact h.trans (by decide)
